import Mathlib

/-!
Verification of the linear-programming solver in `src/utils/simplex.rs`
(revised simplex method with branch and bound).

The Rust code computes over IEEE-754 `f64`; this development models every
numeric value as an exact rational (`ℚ`).  All control flow — normalization
of constraints, deduplication, standardization, the revised-simplex loop
with its 10000-iteration cap, the two-phase solve, and the branch-and-bound
queue — is translated operation for operation from the source.  Rust panics
(`unwrap` on a singular basis, out-of-bounds indexing on an empty builder,
matrix construction from a too-short iterator) are modelled as `Option.none`
or a dedicated error constructor, as noted at each definition.
-/

set_option maxRecDepth 4000

/-! ### List and matrix helpers (dense rational matrices as lists of rows) -/

/-- Dot product of two rational vectors (`zipWith` truncates, matching
nalgebra only on equal lengths, which holds on all paths exercised). -/
def dotQ (a b : List ℚ) : ℚ := (List.zipWith (· * ·) a b).sum

/-- Matrix–vector product: one dot product per row. -/
def matVec (m : List (List ℚ)) (v : List ℚ) : List ℚ := m.map (fun r => dotQ r v)

/-- Entry of a row at column `j` (0 outside; nalgebra would panic outside,
but every access in the translated paths is in range). -/
def entryAt (r : List ℚ) (j : Nat) : ℚ := r.getD j 0

/-- Transpose of an m×n matrix stored by rows. -/
def transposeM (m : List (List ℚ)) : List (List ℚ) :=
  (List.range (m.headD []).length).map (fun j => m.map (fun r => entryAt r j))

/-- Column `j` of a matrix, as used by `self.constraints.column(entering_index)`. -/
def colOf (m : List (List ℚ)) (j : Nat) : List ℚ := m.map (fun r => entryAt r j)

/-- `Matrix::select_columns`: keep the listed columns, in the given order. -/
def selectColumns (m : List (List ℚ)) (cols : List Nat) : List (List ℚ) :=
  m.map (fun r => cols.map (fun j => entryAt r j))

/-- `Matrix::select_rows` on a column vector. -/
def selectRows (v : List ℚ) (idxs : List Nat) : List ℚ := idxs.map (fun i => v.getD i 0)

/-- One Gauss–Jordan pivot search: first row with a nonzero entry in column
`c`, together with the remaining rows in their original order. -/
def findPivot (c : Nat) : List (List ℚ) → Option (List ℚ × List (List ℚ))
  | [] => none
  | r :: rs =>
    if entryAt r c ≠ 0 then some (r, rs)
    else (findPivot c rs).map (fun p => (p.1, r :: p.2))

/-- Subtract `s` from `r` componentwise. -/
def rowSub (r s : List ℚ) : List ℚ := List.zipWith (· - ·) r s

/-- Clear column `c` of row `r` using the (already scaled) pivot row `p`. -/
def clearCol (c : Nat) (p r : List ℚ) : List ℚ := rowSub r (p.map (· * entryAt r c))

/-- Gauss–Jordan elimination over the listed columns; `done` accumulates the
pivot rows in column order.  Returns `none` when some column has no pivot. -/
def gjElim : List Nat → List (List ℚ) → List (List ℚ) → Option (List (List ℚ))
  | [], rows, done => some (done ++ rows)
  | c :: cs, rows, done =>
    match findPivot c rows with
    | none => none
    | some (p, rest) =>
      let p1 := p.map (· / entryAt p c)
      gjElim cs (rest.map (clearCol c p1)) (done.map (clearCol c p1) ++ [p1])

/-- Identity-matrix row `i` of size `m`. -/
def idRow (m i : Nat) : List ℚ := (List.range m).map (fun j => if j = i then 1 else 0)

/-- The m×m identity matrix (`DMatrix::from_diagonal_element(m, m, 1.0)`). -/
def idBlock (m : Nat) : List (List ℚ) := (List.range m).map (idRow m)

/-- Exact inverse of a square rational matrix, modelling nalgebra
`try_inverse` (which computes the same matrix up to `f64` rounding):
row reduce `[A | I]` to `[I | A⁻¹]`; `none` when `A` is singular. -/
def gjInverse (mat : List (List ℚ)) : Option (List (List ℚ)) :=
  let n := mat.length
  let aug := (mat.zip (idBlock n)).map (fun p => p.1 ++ p.2)
  (gjElim (List.range n) aug []).map (fun rows => rows.map (List.drop n))

/-- Index of the first minimum of a list, as nalgebra `argmin` computes it
(strict `<`, so the earliest minimal index is kept); `0` on the empty list,
which is never consulted on the translated paths. -/
def argminAux : List ℚ → Nat → Nat → ℚ → Nat
  | [], _, bi, _ => bi
  | x :: xs, i, bi, bv => if x < bv then argminAux xs (i + 1) i x else argminAux xs (i + 1) bi bv

/-- First index attaining the minimum of a rational list. -/
def argminIdx : List ℚ → Nat
  | [] => 0
  | x :: xs => argminAux xs 1 0 x

/-- One comparison step of `Iterator::min_by`: the accumulator is replaced
only on a strict decrease, so ties keep the earlier element. -/
def minStep (acc y : Nat × ℚ) : Nat × ℚ := if y.2 < acc.2 then y else acc

/-- `Iterator::min_by` with `total_cmp`: the first element with minimal
second component. -/
def minByFirst (l : List (Nat × ℚ)) : Option (Nat × ℚ) :=
  match l with
  | [] => none
  | x :: xs => some (xs.foldl minStep x)

/-! ### Constraint-system builder (`LPBuilder` in simplex.rs) -/

/-- Relational operators of a constraint (`LPOps` in the source). -/
inductive LPOps
  | eq
  | gte
  | lte
deriving DecidableEq, Repr

/-- Builder state: objective coefficients, constraint rows, right-hand
sides (`ans`) and operators, exactly the four fields of the Rust struct. -/
structure LPBuilder where
  objective : List ℤ := []
  constraints : List (List ℤ) := []
  ans : List ℤ := []
  ops : List LPOps := []
deriving DecidableEq, Repr

/-- `LPBuilder::new` / `Default::default`. -/
def LPBuilder.new : LPBuilder := {}

/-- `LPBuilder::add_objective`: overwrites the stored objective. -/
def addObjective (b : LPBuilder) (objective : List ℤ) : LPBuilder :=
  { b with objective := objective }

/-- Operator flip used when the right-hand side is negated. -/
def flipOp : LPOps → LPOps
  | .eq => .eq
  | .gte => .lte
  | .lte => .gte

/-- Sign normalization at the top of `add_constraint`: a negative
right-hand side negates the row and `ans` and flips the operator. -/
def normalizeConstraint (c : List ℤ) (op : LPOps) (ans : ℤ) : List ℤ × LPOps × ℤ :=
  if ans < 0 then (c.map (fun t => -t), flipOp op, -ans) else (c, op, ans)

/-- `LPBuilder::add_constraint`: normalize, then append unless an identical
normalized `(coefficients, operator, rhs)` row is already stored.  The
existence test enumerates constraint rows and looks up `ops`/`ans` at the
same index, as the Rust iterator chain does. -/
def addConstraint (b : LPBuilder) (c : List ℤ) (op : LPOps) (ans : ℤ) : LPBuilder :=
  let n := normalizeConstraint c op ans
  let constraintExists := b.constraints.enum.any
    (fun p => decide (p.2 = n.1 ∧ b.ops.get? p.1 = some n.2.1 ∧ b.ans.get? p.1 = some n.2.2))
  if constraintExists then b
  else { b with
          constraints := b.constraints ++ [n.1]
          ans := b.ans ++ [n.2.2]
          ops := b.ops ++ [n.2.1] }

/-! ### Standard-form compiler (`LPBuilder::build`) -/

/-- Number of slack/surplus columns: one per `Gte` or `Lte` constraint. -/
def numSlackVars (ops : List LPOps) : Nat := (ops.filter (fun op => decide (op ≠ .eq))).length

/-- Row of the slack block for one constraint: an `Eq` row is all zeros,
a `Gte` row has −1 and an `Lte` row has +1 in column `curr`. -/
def mkSlackRow (sTotal curr : Nat) (op : LPOps) : List ℚ :=
  (List.range sTotal).map
    (fun j => if op = .eq then 0 else if j = curr then (if op = .gte then -1 else 1) else 0)

/-- The slack block rows for a list of operators: `curr` advances exactly on
non-`Eq` rows, mirroring the `curr_slack_var` counter in the source. -/
def slackBlockAux (sTotal : Nat) : List LPOps → Nat → List (List ℚ)
  | [], _ => []
  | op :: rest, curr =>
    mkSlackRow sTotal curr op :: slackBlockAux sTotal rest (if op = .eq then curr else curr + 1)

/-- Slack block padded to `m` rows: `DMatrix::zeros(m, s)` has `m` rows even
when fewer operators are stored (an unreachable state through the API). -/
def slackBlock (m : Nat) (ops : List LPOps) : List (List ℚ) :=
  let sTotal := numSlackVars ops
  slackBlockAux sTotal ops 0 ++ List.replicate (m - ops.length) (List.replicate sTotal 0)

/-- Reshape a flat coefficient stream into `m` rows of `n`, as
`DMatrix::from_row_iterator` does (row-major). -/
def chunksOf (n : Nat) : Nat → List ℚ → List (List ℚ)
  | 0, _ => []
  | m + 1, flat => flat.take n :: chunksOf n m (flat.drop n)

/-- Standard form produced by `build`: the horizontally stacked constraint
matrix `[A | S | I]`, both objective vectors, the right-hand side and the
two column-range markers. -/
structure LPSolver where
  p1Objective : List ℚ
  c : List ℚ
  b : List ℚ
  constraints : List (List ℚ)
  slackVarStart : Nat
  artificialVarStart : Nat
deriving DecidableEq, Repr

/-- Number of columns of the stacked constraint matrix
(`self.constraints.ncols()`). -/
def ncolsOf (s : LPSolver) : Nat := (s.constraints.headD []).length

/-- Number of artificial columns in the stacked matrix. -/
def numArtificialCols (s : LPSolver) : Nat := ncolsOf s - s.artificialVarStart

/-- `LPBuilder::build`.  The Rust function returns `anyhow::Result` but
never constructs an `Err`; its only failure modes are panics, modelled as
`none`: indexing `constraints[0]` on an empty builder, the slack-matrix
write when more operators than rows are stored, and
`from_row_iterator` running out of elements.  No dimension check against
the objective is performed anywhere. -/
def build (bd : LPBuilder) : Option LPSolver :=
  match bd.constraints with
  | [] => none
  | c0 :: _ =>
    let m := bd.constraints.length
    let numVariables := c0.length
    if m < bd.ops.length then none
    else
      let flat := (bd.constraints.map (fun r => r.map (fun v : ℤ => (v : ℚ)))).flatten
      if flat.length < m * numVariables then none
      else
        let sTotal := numSlackVars bd.ops
        let constraintsMatrix := chunksOf numVariables m flat
        let rows := (constraintsMatrix.zip ((slackBlock m bd.ops).zip (idBlock m))).map
          (fun p => p.1 ++ p.2.1 ++ p.2.2)
        some
          { p1Objective := List.replicate (sTotal + numVariables) 0 ++ List.replicate m 1
            c := bd.objective.map (fun v : ℤ => (v : ℚ)) ++ List.replicate (sTotal + m) 0
            b := bd.ans.map (fun v : ℤ => (v : ℚ))
            constraints := rows
            slackVarStart := numVariables
            artificialVarStart := numVariables + sTotal }

/-! ### Simplex engine (`LPSolver` methods) -/

/-- Failure modes of a solve (`LPSolverError` in the source), plus
`pivotFailure`, which models the Rust `unwrap` panics inside the loop
(singular basis matrix, or an empty ratio-test candidate set — the latter
is unreachable because the unbounded check precedes it). -/
inductive LPSolverError
  | unboundedProblem
  | noSolution
  | maxIterationsReached
  | pivotFailure
deriving DecidableEq, Repr

/-- Result of one solve: objective value, decision-variable values and the
final basis (`Solution` in the source). -/
structure Solution where
  minima : ℚ
  solution : List ℚ
  basis : List Nat
deriving DecidableEq, Repr

/-- Inverse of the current basis matrix (`basic_vars_matrix.try_inverse()`). -/
def basisInvOf (s : LPSolver) (bCols : List Nat) : Option (List (List ℚ)) :=
  gjInverse (selectColumns s.constraints bCols)

/-- Simplex multipliers `y = (Bᵀ)⁻¹ c_B`. -/
def multipliersOf (s : LPSolver) (objective : List ℚ) (bCols : List Nat) : Option (List ℚ) :=
  (gjInverse (transposeM (selectColumns s.constraints bCols))).map
    (fun btInv => matVec btInv (selectRows objective bCols))

/-- Reduced costs `c_N − Nᵀ y` over the non-basic columns. -/
def reducedCostsOf (s : LPSolver) (objective : List ℚ) (bCols nCols : List Nat) :
    Option (List ℚ) :=
  (multipliersOf s objective bCols).map
    (fun y =>
      List.zipWith (· - ·) (selectRows objective nCols)
        (matVec (transposeM (selectColumns s.constraints nCols)) y))

/-- The tolerance `1e-15` of the `abs_diff_eq!` optimality escape, as an
exact rational. -/
def qEps : ℚ := 1 / 10 ^ 15

/-- Termination test of the loop: all reduced costs nonnegative, or all
within `1e-15` of zero (the source's `abs_diff_eq!` disjunct). -/
def optimalityCheck (rc : List ℚ) : Bool :=
  rc.all (fun q => decide (0 ≤ q)) || rc.all (fun q => decide (|q| ≤ qEps))

/-- Scatter the basic values into a zero vector of width `n`
(`solution.set_row(col, basis_solution.row(i))`). -/
def assembleSolution (n : Nat) (bCols : List Nat) (basisSolution : List ℚ) : List ℚ :=
  (bCols.zip basisSolution).foldl (fun acc p => acc.set p.1 p.2) (List.replicate n 0)

/-- Ratio test: enumerate `B⁻¹b` zipped with the pivot column, keep rows
with strictly positive pivot entry, map to `x_i / d_i`, take the first
minimum (`min_by` + `total_cmp`).  Returns the leaving basis position. -/
def leavingColOf (xB d : List ℚ) : Option Nat :=
  (minByFirst (((xB.zip d).enum.filter (fun p => decide (0 < p.2.2))).map
      (fun p => (p.1, p.2.1 / p.2.2)))).map Prod.fst

/-- One iteration of `_revised_simplex_method`: either a terminal outcome
(`inl`: assembled solution and basis) or the updated
`(b_columns, n_columns)` after a pivot (`inr`).  The final assignment
`n_columns[pos] = b_columns[leaving]` reads the already overwritten entry,
exactly as the source does. -/
def simplexStep (s : LPSolver) (objective : List ℚ) (bCols nCols : List Nat) :
    Except LPSolverError ((List ℚ × List Nat) ⊕ (List Nat × List Nat)) :=
  match basisInvOf s bCols with
  | none => .error .pivotFailure
  | some basisInv =>
    match reducedCostsOf s objective bCols nCols with
    | none => .error .pivotFailure
    | some rc =>
      if optimalityCheck rc then
        .ok (.inl (assembleSolution (ncolsOf s) bCols (matVec basisInv s.b), bCols))
      else
        let enteringPos := argminIdx rc
        let entering := nCols.getD enteringPos 0
        let d := matVec basisInv (colOf s.constraints entering)
        if d.all (fun q => decide (q ≤ 0)) then .error .unboundedProblem
        else
          match leavingColOf (matVec basisInv s.b) d with
          | none => .error .pivotFailure
          | some leavingCol =>
            let bCols2 := bCols.set leavingCol entering
            let nCols2 := nCols.set enteringPos (bCols2.getD leavingCol 0)
            .ok (.inr (bCols2, nCols2))

/-- The iteration loop.  The source counts pivots and aborts with
`MaxIterationsReached` when the count reaches 10000, so the recursion is
structurally bounded: fuel `10000` allows exactly 10000 optimality checks
and 10000 pivots before the abort, matching the source's schedule. -/
def simplexGo (s : LPSolver) (objective : List ℚ) :
    Nat → List Nat → List Nat → Except LPSolverError (List ℚ × List Nat)
  | 0, _, _ => .error .maxIterationsReached
  | fuel + 1, bCols, nCols =>
    match simplexStep s objective bCols nCols with
    | .error e => .error e
    | .ok (.inl out) => .ok out
    | .ok (.inr p) => simplexGo s objective fuel p.1 p.2

/-- `LPSolver::_revised_simplex_method`: non-basic candidates are all
columns below `final_index` (all columns in Phase 1, only
decision/slack columns in Phase 2) that are not in the initial basis. -/
def revisedSimplexMethod (s : LPSolver) (bCols : List Nat) (objective : List ℚ)
    (useArtificialVars : Bool) : Except LPSolverError (List ℚ × List Nat) :=
  let finalIndex := if useArtificialVars then ncolsOf s else s.artificialVarStart
  let nCols := (List.range finalIndex).filter (fun x => decide (x ∉ bCols))
  simplexGo s objective 10000 bCols nCols

/-- Initial Phase-1 basis: every artificial column
(`artificial_var_start..ncols`). -/
def bfsInitBasis (s : LPSolver) : List Nat :=
  List.range' s.artificialVarStart (ncolsOf s - s.artificialVarStart)

/-- `LPSolver::_get_basic_feasible_solution`: run Phase 1 on the artificial
objective; report `NoSolution` when the artificial objective value of the
returned point is nonzero. -/
def getBasicFeasibleSolution (s : LPSolver) : Except LPSolverError (List Nat) :=
  match revisedSimplexMethod s (bfsInitBasis s) s.p1Objective true with
  | .error e => .error e
  | .ok out => if dotQ s.p1Objective out.1 ≠ 0 then .error .noSolution else .ok out.2

/-- `LPSolver::solve`: Phase 1 for a feasible basis, then Phase 2 on the
real objective; the reported solution keeps only the decision-variable
rows `0..slack_var_start`. -/
def solveLP (s : LPSolver) : Except LPSolverError Solution :=
  match getBasicFeasibleSolution s with
  | .error e => .error e
  | .ok bfsBasis =>
    match revisedSimplexMethod s bfsBasis s.c false with
    | .error e => .error e
    | .ok out =>
      .ok { minima := dotQ s.c out.1
            solution := (List.range s.slackVarStart).map (fun i => out.1.getD i 0)
            basis := out.2 }

/-! ### Branch and bound -/

/-- `Solution::is_integer_solution`: `v.round() == v` holds for a finite
`f64` exactly when the value is an integer, i.e. has denominator 1. -/
def isIntegerSolution (sol : Solution) : Bool := sol.solution.all (fun v => decide (v.den = 1))

/-- `Solution::get_fractional_constraints`: indices with fractional value
(`v.fract() != 0` holds exactly when the denominator is not 1) paired with
`(floor, ceil)`.  The source collects into a `HashMap`, whose iteration
order is unspecified; it is modelled here in index order, and every
property proved about it is insensitive to the order. -/
def getFractionalConstraints (sol : Solution) : List (Nat × ℤ × ℤ) :=
  (sol.solution.enum.filter (fun p => decide (p.2.den ≠ 1))).map
    (fun p => (p.1, ⌊p.2⌋, ⌈p.2⌉))

/-- The branching row `constraint_eq`: a unit coefficient vector of the
solution's width with a 1 at position `k`. -/
def unitRow (n k : Nat) : List ℤ := (List.range n).map (fun j => if j = k then 1 else 0)

/-- The children pushed for one node: for each fractional variable, first
the upper-bound child (`x_k ≥ ceil`), then the lower-bound child
(`x_k ≤ floor`), each enqueued only when it differs from the parent. -/
def branchChildren (lp : LPBuilder) (sol : Solution) : List LPBuilder :=
  (getFractionalConstraints sol).flatMap
    (fun f =>
      let ce := unitRow sol.solution.length f.1
      let upper := addConstraint lp ce .gte f.2.2
      let lower := addConstraint lp ce .lte f.2.1
      (if upper ≠ lp then [upper] else []) ++ (if lower ≠ lp then [lower] else []))

/-- The `while let Some(lp) = queue.pop_front()` loop of `branch_and_bound`.
`best_minima` starts as `f64::MAX`, modelled as `none` (so the first bound
comparison never prunes).  A `build` panic is modelled as `none`.  The
`fuel` argument only bounds the number of loop iterations of the model;
every run proved below drains its queue strictly before the fuel runs out. -/
def bbLoop : Nat → List LPBuilder → Option Solution → Option ℚ → Option Solution
  | _, [], best, _ => best
  | 0, _ :: _, best, _ => best
  | fuel + 1, lp :: rest, best, bestMinima =>
    match build lp with
    | none => none
    | some solver =>
      match solveLP solver with
      | .error _ => bbLoop fuel rest best bestMinima
      | .ok sol =>
        if (match bestMinima with | some bm => decide (bm ≤ sol.minima) | none => false) then
          bbLoop fuel rest best bestMinima
        else if isIntegerSolution sol then
          bbLoop fuel rest (some sol) (some sol.minima)
        else
          bbLoop fuel (rest ++ branchChildren lp sol) best bestMinima

/-- `branch_and_bound`: seed the queue with the initial builder. -/
def branchAndBound (fuel : Nat) (lp : LPBuilder) : Option Solution :=
  bbLoop fuel [lp] none none

/-! ### Constraint satisfaction (for stating feasibility of a returned point) -/

/-- Whether the assignment `x` of decision-variable values satisfies one
original constraint row exactly. -/
def constraintSatisfiedB (row : List ℤ) (op : LPOps) (rhs : ℤ) (x : List ℚ) : Bool :=
  match op with
  | .eq => decide (dotQ (row.map (fun v : ℤ => (v : ℚ))) x = (rhs : ℚ))
  | .gte => decide ((rhs : ℚ) ≤ dotQ (row.map (fun v : ℤ => (v : ℚ))) x)
  | .lte => decide (dotQ (row.map (fun v : ℤ => (v : ℚ))) x ≤ (rhs : ℚ))

/-- Builder states reachable through the public constructor API. -/
inductive ReachableBuilder : LPBuilder → Prop
  | new : ReachableBuilder LPBuilder.new
  | addObjective {b : LPBuilder} (o : List ℤ) :
      ReachableBuilder b → ReachableBuilder (addObjective b o)
  | addConstraint {b : LPBuilder} (c : List ℤ) (op : LPOps) (r : ℤ) :
      ReachableBuilder b → ReachableBuilder (addConstraint b c op r)

-- Decidable equality for `Except` results, used to evaluate concrete runs
-- inside proofs.
deriving instance DecidableEq for Except

/-! ### Concrete instances used by the claim theorems -/

/-- Builder for a single-variable infeasible system: `x ≥ 10` and `x ≤ 5`
(the spec's infeasibility scenario); the objective is irrelevant to
Phase 1. -/
def bC6 : LPBuilder :=
  addConstraint (addConstraint (addObjective LPBuilder.new [1]) [1] .gte 10) [1] .lte 5

/-- Standard form of `bC6`. -/
def sC6 : LPSolver :=
  { p1Objective := [0, 0, 0, 1, 1]
    c := [1, 0, 0, 0, 0]
    b := [10, 5]
    constraints := [[1, -1, 0, 1, 0], [1, 0, 1, 0, 1]]
    slackVarStart := 1
    artificialVarStart := 3 }

/-- Builder whose redundant pair of equalities (`x₀+x₁+x₂ = 1` and
`2x₀+2x₁ = 2`) leaves an artificial variable in the Phase-1 basis at value
zero; a Phase-2 pivot then drives that artificial to 2, so the reported
point `[0, 0, 1]` violates the second constraint. -/
def bC1 : LPBuilder :=
  addConstraint (addConstraint (addObjective LPBuilder.new [0, 0, -1]) [1, 1, 1] .eq 1)
    [2, 2, 0] .eq 2

/-- The (infeasible) integer point branch-and-bound reports for `bC1`. -/
def solC1 : Solution := { minima := -1, solution := [0, 0, 1], basis := [2, 4] }

/-- Builder with a single `Lte` constraint, for the standardization claim. -/
def bC2 : LPBuilder := addConstraint (addObjective LPBuilder.new [1]) [1] .lte 1

/-- Standard form of `bC2`: despite the operator being `Lte`, the stacked
matrix has an artificial column (column 2) and the Phase-1 basis is that
artificial column. -/
def sC2 : LPSolver :=
  { p1Objective := [0, 0, 1]
    c := [1, 0, 0]
    b := [1]
    constraints := [[1, 1, 1]]
    slackVarStart := 1
    artificialVarStart := 2 }

/-- Builder whose only constraint row has 1 coefficient while the objective
has 2: a dimension mismatch. -/
def bC3 : LPBuilder := addConstraint (addObjective LPBuilder.new [1, 2]) [1] .lte 1

/-- The solver `build` happily produces for the mismatched `bC3`. -/
def sC3 : LPSolver :=
  { p1Objective := [0, 0, 1]
    c := [1, 2, 0, 0]
    b := [1]
    constraints := [[1, 1, 1]]
    slackVarStart := 1
    artificialVarStart := 2 }

/-- Builder (minimize `−x₀−x₁` under `2x₀ ≤ 1`, `2x₁ ≤ 1`) whose relaxation
optimum `[1/2, 1/2]` has two fractional variables. -/
def bC4 : LPBuilder :=
  addConstraint (addConstraint (addObjective LPBuilder.new [-1, -1]) [2, 0] .lte 1)
    [0, 2] .lte 1

/-- Standard form of `bC4`. -/
def sC4 : LPSolver :=
  { p1Objective := [0, 0, 0, 0, 1, 1]
    c := [-1, -1, 0, 0, 0, 0]
    b := [1, 1]
    constraints := [[2, 0, 1, 0, 1, 0], [0, 2, 0, 1, 0, 1]]
    slackVarStart := 2
    artificialVarStart := 4 }

/-- The relaxation optimum of `bC4`. -/
def solC4 : Solution := { minima := -1, solution := [1/2, 1/2], basis := [0, 1] }

/-- Whether one simplex iteration declared the current basis terminal
(optimal) rather than pivoting or failing. -/
def isTerminalStep (r : Except LPSolverError ((List ℚ × List Nat) ⊕ (List Nat × List Nat))) :
    Bool :=
  match r with
  | .ok (.inl _) => true
  | _ => false

/-- Builder with the huge (but i64-representable) coefficient `10^16`,
whose standard form produces a reduced cost of `−1/10^16`, within the
`1e-15` tolerance of the optimality escape. -/
def bC7 : LPBuilder := addConstraint (addObjective LPBuilder.new [1]) [10 ^ 16] .lte 1

/-- Standard form of `bC7`. -/
def sC7 : LPSolver :=
  { p1Objective := [0, 0, 1]
    c := [1, 0, 0]
    b := [1]
    constraints := [[10000000000000000, 1, 1]]
    slackVarStart := 1
    artificialVarStart := 2 }

/-- Builder with one constraint of each operator kind, used to witness the
standardization structure theorem. -/
def bW2 : LPBuilder :=
  addConstraint (addConstraint (addConstraint (addObjective LPBuilder.new [1, 1])
    [1, 2] .lte 3) [2, 1] .gte 1) [1, 1] .eq 2

/-- Standard form of `bW2`. -/
def sW2 : LPSolver :=
  { p1Objective := [0, 0, 0, 0, 1, 1, 1]
    c := [1, 1, 0, 0, 0, 0, 0]
    b := [3, 1, 2]
    constraints := [[1, 2, 1, 0, 1, 0, 0], [2, 1, 0, -1, 0, 1, 0], [1, 1, 0, 0, 0, 0, 1]]
    slackVarStart := 2
    artificialVarStart := 4 }

/-- Builder whose constraint is entered with a negative right-hand side,
used to witness the normalization claim. -/
def bW8 : LPBuilder := addConstraint LPBuilder.new [1, 2] .lte (-3)

/-! ### Helper lemmas -/

/-- The `b` vector of a built solver is the builder's `ans` list cast to ℚ. -/
lemma build_b_eq (bd : LPBuilder) (s : LPSolver) (h : build bd = some s) :
    s.b = bd.ans.map (fun v : ℤ => (v : ℚ)) := by
  unfold build at h
  cases hc : bd.constraints with
  | nil => rw [hc] at h; exact absurd h (by simp)
  | cons c0 tl =>
    rw [hc] at h
    simp only [] at h
    split_ifs at h
    injection h with h
    subst h
    rfl

/-- Every `ans` entry of an API-reachable builder is nonnegative. -/
lemma reachable_ans_nonneg {b : LPBuilder} (hb : ReachableBuilder b) : ∀ x ∈ b.ans, 0 ≤ x := by
  induction hb with
  | new => simp [LPBuilder.new]
  | addObjective o hb ih => simpa [addObjective] using ih
  | addConstraint c op r hb ih =>
    simp only [addConstraint]
    split
    · exact ih
    · intro x hx
      simp only [List.mem_append, List.mem_singleton] at hx
      rcases hx with hx | hx
      · exact ih x hx
      · subst hx
        unfold normalizeConstraint
        split_ifs with h
        · simp only []
          omega
        · simp only []
          omega

/-- A reachable builder stores equally many rows, operators and right-hand
sides. -/
lemma reachable_lengths {b : LPBuilder} (hb : ReachableBuilder b) :
    b.ops.length = b.constraints.length ∧ b.ans.length = b.constraints.length := by
  induction hb with
  | new => exact ⟨rfl, rfl⟩
  | addObjective o hb ih => exact ih
  | addConstraint c op r hb ih =>
    simp only [addConstraint]
    split
    · exact ih
    · simp only [List.length_append, List.length_singleton]
      omega

/-- Entering a constraint with a negative right-hand side is the same call
as entering the negated row with the flipped operator and negated rhs. -/
lemma addConstraint_neg (b : LPBuilder) (c : List ℤ) (op : LPOps) (r : ℤ) (h : r < 0) :
    addConstraint b c op r = addConstraint b (c.map (fun t => -t)) (flipOp op) (-r) := by
  unfold addConstraint
  have hn : normalizeConstraint c op r =
      normalizeConstraint (c.map (fun t => -t)) (flipOp op) (-r) := by
    unfold normalizeConstraint
    rw [if_pos h, if_neg (by omega)]
  rw [hn]

/-! ### Claim theorems -/

/-- C10: a second `add_objective` call silently replaces the stored
objective, leaving constraints, operators and right-hand sides untouched:
the two-call state equals the one-call state. -/
theorem c10_add_objective_replaces (b : LPBuilder) (o1 o2 : List ℤ) :
    addObjective (addObjective b o1) o2 = addObjective b o2 := rfl

/-- C9: `add_constraint` is idempotent under exact duplicates — on any
builder whose three row lists are aligned (as every API-reachable builder
is), adding the same `(coefficients, operator, rhs)` twice in succession
yields the state of adding it once. -/
theorem c9_add_constraint_idempotent (b : LPBuilder) (c : List ℤ) (op : LPOps) (r : ℤ)
    (h1 : b.ops.length = b.constraints.length) (h2 : b.ans.length = b.constraints.length) :
    addConstraint (addConstraint b c op r) c op r = addConstraint b c op r := by
  by_cases hE : (b.constraints.enum.any (fun p =>
      decide (p.2 = (normalizeConstraint c op r).1 ∧
        b.ops.get? p.1 = some (normalizeConstraint c op r).2.1 ∧
        b.ans.get? p.1 = some (normalizeConstraint c op r).2.2))) = true
  · have hid : addConstraint b c op r = b := by
      unfold addConstraint
      rw [if_pos hE]
    rw [hid]
    exact hid
  · have hid : addConstraint b c op r =
        { b with
          constraints := b.constraints ++ [(normalizeConstraint c op r).1]
          ans := b.ans ++ [(normalizeConstraint c op r).2.2]
          ops := b.ops ++ [(normalizeConstraint c op r).2.1] } := by
      unfold addConstraint
      rw [if_neg hE]
    rw [hid]
    unfold addConstraint
    rw [if_pos]
    apply List.any_eq_true.mpr
    refine ⟨(b.constraints.length, (normalizeConstraint c op r).1), ?_, ?_⟩
    · rw [List.mk_mem_enum_iff_getElem?]
      exact List.getElem?_concat_length b.constraints (normalizeConstraint c op r).1
    · simp only [List.get?_eq_getElem?, decide_eq_true_eq]
      refine ⟨trivial, ?_, ?_⟩
      · rw [show b.constraints.length = b.ops.length from h1.symm]
        exact List.getElem?_concat_length b.ops (normalizeConstraint c op r).2.1
      · rw [show b.constraints.length = b.ans.length from h2.symm]
        exact List.getElem?_concat_length b.ans (normalizeConstraint c op r).2.2

/-- C9 witness: concrete idempotence on a reachable builder. -/
theorem c9_witness :
    LPBuilder.new.ops.length = LPBuilder.new.constraints.length ∧
    LPBuilder.new.ans.length = LPBuilder.new.constraints.length ∧
    addConstraint (addConstraint LPBuilder.new [1] .lte 2) [1] .lte 2 =
      addConstraint LPBuilder.new [1] .lte 2 :=
  ⟨rfl, rfl, c9_add_constraint_idempotent LPBuilder.new [1] .lte 2 rfl rfl⟩

/-- C8: on every API-reachable builder state, every stored right-hand side
is nonnegative (a row entered with a negative rhs is the same as entering
the negated row with the flipped operator), and the `b` vector of the
standardized system is componentwise nonnegative. -/
theorem c8_rhs_nonneg (b : LPBuilder) (hb : ReachableBuilder b) :
    (∀ x ∈ b.ans, 0 ≤ x) ∧
    (∀ s, build b = some s → ∀ q ∈ s.b, 0 ≤ q) ∧
    (∀ c op r, r < 0 →
      addConstraint b c op r = addConstraint b (c.map (fun t => -t)) (flipOp op) (-r)) := by
  refine ⟨reachable_ans_nonneg hb, fun s hs q hq => ?_, fun c op r hr => addConstraint_neg b c op r hr⟩
  rw [build_b_eq b s hs] at hq
  obtain ⟨x, hx, hxq⟩ := (@List.mem_map ℤ ℚ q (fun v : ℤ => (v : ℚ)) b.ans).mp hq
  rw [show q = ((x : ℚ)) from hxq.symm]
  exact_mod_cast reachable_ans_nonneg hb x hx

/-- C8 witness: the builder `bW8`, entered with rhs −3, is reachable and is
stored normalized with rhs 3 ≥ 0; its built `b` vector is nonnegative. -/
theorem c8_witness :
    ReachableBuilder bW8 ∧ bW8.ans = [3] ∧ bW8.ops = [LPOps.gte] ∧ (∀ x ∈ bW8.ans, 0 ≤ x) :=
  ⟨ReachableBuilder.addConstraint [1, 2] .lte (-3) ReachableBuilder.new, by decide, by decide,
    (c8_rhs_nonneg bW8
      (ReachableBuilder.addConstraint [1, 2] .lte (-3) ReachableBuilder.new)).1⟩

unseal Rat.mul Rat.add Rat.sub Rat.inv in
/-- C1: `branch_and_bound` on the system
`minimize −x₂ subject to x₀+x₁+x₂ = 1, 2x₀+2x₁ = 2` returns the integer
point `[0, 0, 1]`, which violates the second original constraint
(`2·0 + 2·0 = 0 ≠ 2`): the claimed feasibility soundness fails on the
code.  (Phase 1 leaves the second artificial variable in the basis at
value 0; the missing degenerate-cleanup pass lets a Phase-2 pivot drive it
to 2.  Every intermediate number in this run is a small integer or ratio
thereof, exactly representable in `f64`, so the rational model follows the
floating-point execution step for step.) -/
theorem c1_bb_returns_constraint_violating_point :
    branchAndBound 5 bC1 = some solC1 ∧
    isIntegerSolution solC1 = true ∧
    bC1.constraints = [[1, 1, 1], [2, 2, 0]] ∧
    bC1.ops = [LPOps.eq, LPOps.eq] ∧
    bC1.ans = [1, 2] ∧
    constraintSatisfiedB [2, 2, 0] LPOps.eq 2 solC1.solution = false := by
  refine ⟨?_, ?_, ?_, ?_, ?_, ?_⟩ <;> decide

unseal Rat.mul Rat.add Rat.sub Rat.inv in
/-- C2 counterexample: the builder `bC2` holds a single `LessEq`
constraint, yet its standard form has one artificial column (the claim
says none for `LessEq`), and Phase 1's initial basic column for the row is
that artificial column 2, not the slack column 1. -/
theorem c2_lte_gets_artificial_and_artificial_basis :
    bC2.ops = [LPOps.lte] ∧
    build bC2 = some sC2 ∧
    numArtificialCols sC2 = 1 ∧
    sC2.slackVarStart = 1 ∧
    sC2.artificialVarStart = 2 ∧
    bfsInitBasis sC2 = [2] := by
  refine ⟨?_, ?_, ?_, ?_, ?_, ?_⟩ <;> decide

unseal Rat.mul Rat.add Rat.sub Rat.inv in
/-- C3 counterexample: `bC3` has a 2-coefficient objective but a
1-coefficient constraint row, and `build` succeeds anyway, producing a
solver instead of a dimension-mismatch error. -/
theorem c3_mismatched_build_succeeds :
    bC3.objective.length = 2 ∧
    (bC3.constraints.headD []).length = 1 ∧
    build bC3 = some sC3 := by
  refine ⟨?_, ?_, ?_⟩ <;> decide

/-- C3 amended: `build` performs no dimension check at all — it succeeds
for every builder with at least one constraint row, at most as many
operators as rows, and enough flattened coefficients to fill the matrix,
regardless of the objective's length. -/
theorem c3_build_never_reports_dimension_mismatch (bd : LPBuilder)
    (hne : bd.constraints ≠ [])
    (hops : bd.ops.length ≤ bd.constraints.length)
    (hflat : bd.constraints.length * (bd.constraints.headD []).length ≤
      ((bd.constraints.map (fun r => r.map (fun v : ℤ => (v : ℚ)))).flatten).length) :
    (build bd).isSome = true := by
  unfold build
  cases hc : bd.constraints with
  | nil => exact absurd hc hne
  | cons c0 tl =>
    rw [hc] at hops hflat
    simp only [List.headD_cons] at hflat
    dsimp only
    rw [if_neg (by omega)]
    rw [if_neg (by omega)]
    rfl

/-- C3 witness: the amended statement applied to the mismatched `bC3`. -/
theorem c3_witness :
    bC3.constraints ≠ [] ∧
    bC3.ops.length ≤ bC3.constraints.length ∧
    bC3.constraints.length * (bC3.constraints.headD []).length ≤
      ((bC3.constraints.map (fun r => r.map (fun v : ℤ => (v : ℚ)))).flatten).length ∧
    (build bC3).isSome = true :=
  ⟨by decide, by decide, by decide,
    c3_build_never_reports_dimension_mismatch bC3 (by decide) (by decide) (by decide)⟩

unseal Rat.mul Rat.add Rat.sub Rat.inv in
/-- C4 counterexample: at the root node of `bC4` the relaxation optimum is
`[1/2, 1/2]` with two fractional variables, and the code enqueues four
children — two per fractional variable — not exactly two. -/
theorem c4_branches_on_every_fractional_variable :
    build bC4 = some sC4 ∧
    solveLP sC4 = .ok solC4 ∧
    isIntegerSolution solC4 = false ∧
    getFractionalConstraints solC4 = [(0, 0, 1), (1, 0, 1)] ∧
    (branchChildren bC4 solC4).length = 4 := by
  refine ⟨?_, ?_, ?_, ?_, ?_⟩ <;> decide

unseal Rat.mul Rat.add Rat.sub Rat.inv in
/-- C7 counterexample: on the built system of `bC7` with the decision
column basic (the non-basic set Phase 2 would use is exactly `[1]`, the
slack column), the reduced cost of the slack column is the strictly
negative `−1/10^16`, yet the iteration declares the basis optimal: the
optimality comparison accepts any reduced-cost vector within the `1e-15`
tolerance, so it is an epsilon-based approximate comparison, not an exact
one. -/
theorem c7_optimality_uses_epsilon_comparison :
    build bC7 = some sC7 ∧
    reducedCostsOf sC7 sC7.c [0] [1] = some [-(1 / 10000000000000000)] ∧
    (-(1 / 10000000000000000) : ℚ) < 0 ∧
    isTerminalStep (simplexStep sC7 sC7.c [0] [1]) = true := by
  refine ⟨?_, ?_, ?_, ?_⟩ <;> decide

/-- C7 amended: whenever every reduced cost lies within `1e-15` of zero in
absolute value, the iteration terminates and reports the current basis as
optimal — even when some reduced cost is strictly negative. -/
theorem c7_epsilon_band_terminates (s : LPSolver) (objective : List ℚ)
    (bCols nCols : List Nat) (rc : List ℚ)
    (hB : (basisInvOf s bCols).isSome = true)
    (hrc : reducedCostsOf s objective bCols nCols = some rc)
    (heps : rc.all (fun q => decide (|q| ≤ qEps)) = true) :
    isTerminalStep (simplexStep s objective bCols nCols) = true := by
  obtain ⟨basisInv, hB2⟩ := Option.isSome_iff_exists.mp hB
  have hopt : optimalityCheck rc = true := by
    unfold optimalityCheck
    rw [heps, Bool.or_true]
  have hstep : simplexStep s objective bCols nCols =
      .ok (.inl (assembleSolution (ncolsOf s) bCols (matVec basisInv s.b), bCols)) := by
    unfold simplexStep
    rw [hB2]
    dsimp only
    rw [hrc]
    dsimp only
    rw [hopt]
    rfl
  rw [hstep]
  rfl

unseal Rat.mul Rat.add Rat.sub Rat.inv in
/-- C7 witness: the epsilon-band termination at the concrete `sC7` state,
where the reduced-cost vector is `[−1/10^16]`. -/
theorem c7_witness :
    (basisInvOf sC7 [0]).isSome = true ∧
    reducedCostsOf sC7 sC7.c [0] [1] = some [-(1 / 10000000000000000)] ∧
    ([-(1 / 10000000000000000)] : List ℚ).all (fun q => decide (|q| ≤ qEps)) = true ∧
    isTerminalStep (simplexStep sC7 sC7.c [0] [1]) = true :=
  ⟨by decide, by decide, by decide,
    c7_epsilon_band_terminates sC7 sC7.c [0] [1] [-(1 / 10000000000000000)]
      (by decide) (by decide) (by decide)⟩


/-- One simplex iteration never produces the `NoSolution` error: that
variant is only created by the Phase-1 objective check. -/
lemma simplexStep_ne_noSolution (s : LPSolver) (obj : List ℚ) (bc nc : List Nat) :
    simplexStep s obj bc nc ≠ .error .noSolution := by
  intro h
  unfold simplexStep at h
  dsimp only at h
  split at h
  · simp at h
  · split at h
    · simp at h
    · split at h
      · simp at h
      · split at h
        · simp at h
        · split at h
          · simp at h
          · simp at h

/-- The simplex loop never produces the `NoSolution` error. -/
lemma simplexGo_ne_noSolution (s : LPSolver) (obj : List ℚ) :
    ∀ fuel bc nc, simplexGo s obj fuel bc nc ≠ .error .noSolution := by
  intro fuel
  induction fuel with
  | zero =>
    intro bc nc h
    simp [simplexGo] at h
  | succ f ih =>
    intro bc nc h
    unfold simplexGo at h
    split at h
    · rename_i e he
      injection h with h2
      subst h2
      exact simplexStep_ne_noSolution s obj bc nc he
    · simp at h
    · exact ih _ _ h

/-- `_revised_simplex_method` never produces the `NoSolution` error. -/
lemma revisedSimplexMethod_ne_noSolution (s : LPSolver) (bc : List Nat) (obj : List ℚ)
    (ua : Bool) : revisedSimplexMethod s bc obj ua ≠ .error .noSolution := by
  unfold revisedSimplexMethod
  exact simplexGo_ne_noSolution s obj 10000 bc _

unseal Rat.mul Rat.add Rat.sub Rat.inv in
/-- C6: a solve reports `NoSolution` exactly when Phase 1 terminates with a
nonzero artificial-variable objective value; and the one-variable system
`x ≥ 10`, `x ≤ 5` is reported infeasible rather than solved. -/
theorem c6_no_solution_iff_phase1_nonzero :
    (∀ s : LPSolver, solveLP s = .error .noSolution ↔
      ∃ out, revisedSimplexMethod s (bfsInitBasis s) s.p1Objective true = .ok out ∧
        dotQ s.p1Objective out.1 ≠ 0) ∧
    build bC6 = some sC6 ∧ solveLP sC6 = .error .noSolution := by
  refine ⟨fun s => ⟨fun h => ?_, fun h => ?_⟩, by decide, by decide⟩
  · unfold solveLP at h
    cases hg : getBasicFeasibleSolution s with
    | error e =>
      rw [hg] at h
      dsimp only at h
      injection h with h2
      subst h2
      unfold getBasicFeasibleSolution at hg
      cases h1 : revisedSimplexMethod s (bfsInitBasis s) s.p1Objective true with
      | error e2 =>
        rw [h1] at hg
        dsimp only at hg
        injection hg with h3
        exact absurd (h3 ▸ h1) (revisedSimplexMethod_ne_noSolution s _ _ true)
      | ok out =>
        rw [h1] at hg
        dsimp only at hg
        by_cases hd : dotQ s.p1Objective out.1 ≠ 0
        · exact ⟨out, rfl, hd⟩
        · rw [if_neg hd] at hg
          exact absurd hg (by simp)
    | ok bfs =>
      rw [hg] at h
      dsimp only at h
      cases h2 : revisedSimplexMethod s bfs s.c false with
      | error e2 =>
        rw [h2] at h
        dsimp only at h
        injection h with h3
        exact absurd (h3 ▸ h2) (revisedSimplexMethod_ne_noSolution s _ _ false)
      | ok out2 =>
        rw [h2] at h
        dsimp only at h
        exact absurd h (by simp)
  · obtain ⟨out, h1, hd⟩ := h
    unfold solveLP getBasicFeasibleSolution
    rw [h1]
    dsimp only
    rw [if_pos hd]

/-- Membership in the fractional-constraints list: index `k` is listed with
bounds `(lb, ub)` exactly when the `k`-th solution value is a
non-integer `v` with `lb = ⌊v⌋` and `ub = ⌈v⌉`. -/
lemma mem_getFractionalConstraints (sol : Solution) (k : Nat) (lb ub : ℤ) :
    (k, lb, ub) ∈ getFractionalConstraints sol ↔
      ∃ v, sol.solution.get? k = some v ∧ v.den ≠ 1 ∧ lb = ⌊v⌋ ∧ ub = ⌈v⌉ := by
  unfold getFractionalConstraints
  rw [List.mem_map]
  constructor
  · rintro ⟨p, hp, heq⟩
    rw [List.mem_filter] at hp
    obtain ⟨hpe, hpd⟩ := hp
    have hget := List.mem_enum_iff_getElem?.mp hpe
    simp only [Prod.ext_iff] at heq
    obtain ⟨h1, h2, h3⟩ := heq
    refine ⟨p.2, ?_, ?_, h2.symm, h3.symm⟩
    · rw [List.get?_eq_getElem?, ← h1]
      exact hget
    · simpa using hpd
  · rintro ⟨v, hv, hden, rfl, rfl⟩
    refine ⟨(k, v), ?_, rfl⟩
    rw [List.mem_filter]
    refine ⟨List.mem_enum_iff_getElem?.mpr ?_, by simpa using hden⟩
    rw [← List.get?_eq_getElem?]
    exact hv

/-- C4 amended: the children created at a node are exactly, for every
fractional solution entry `v` at index `k`, the upper child
`parent + (x_k ≥ ⌈v⌉)` and the lower child `parent + (x_k ≤ ⌊v⌋)`, each
kept only when it differs from the parent builder — so every fractional
variable is branched on, not just one. -/
theorem c4_children_characterization (lp : LPBuilder) (sol : Solution) (b2 : LPBuilder) :
    b2 ∈ branchChildren lp sol ↔
      ∃ k v, sol.solution.get? k = some v ∧ v.den ≠ 1 ∧
        ((b2 = addConstraint lp (unitRow sol.solution.length k) .gte ⌈v⌉ ∧ b2 ≠ lp) ∨
         (b2 = addConstraint lp (unitRow sol.solution.length k) .lte ⌊v⌋ ∧ b2 ≠ lp)) := by
  unfold branchChildren
  rw [List.mem_flatMap]
  constructor
  · rintro ⟨f, hf, hmem⟩
    obtain ⟨k, lb, ub⟩ := f
    obtain ⟨v, hv, hden, rfl, rfl⟩ := (mem_getFractionalConstraints sol k lb ub).mp hf
    dsimp only at hmem
    rw [List.mem_append] at hmem
    refine ⟨k, v, hv, hden, ?_⟩
    rcases hmem with hmem | hmem
    · left
      split_ifs at hmem with hne
      · simp only [List.mem_singleton] at hmem
        exact ⟨hmem, hmem ▸ hne⟩
      · simp at hmem
    · right
      split_ifs at hmem with hne
      · simp only [List.mem_singleton] at hmem
        exact ⟨hmem, hmem ▸ hne⟩
      · simp at hmem
  · rintro ⟨k, v, hv, hden, hcase⟩
    refine ⟨(k, ⌊v⌋, ⌈v⌉), (mem_getFractionalConstraints sol k _ _).mpr ⟨v, hv, hden, rfl, rfl⟩, ?_⟩
    dsimp only
    rw [List.mem_append]
    rcases hcase with ⟨rfl, hne⟩ | ⟨rfl, hne⟩
    · left
      rw [if_pos hne]
      exact List.mem_singleton.mpr rfl
    · right
      rw [if_pos hne]
      exact List.mem_singleton.mpr rfl

/-- `chunksOf` always yields `m` rows. -/
lemma chunksOf_length (n : Nat) : ∀ (m : Nat) (flat : List ℚ), (chunksOf n m flat).length = m := by
  intro m
  induction m with
  | zero => intro flat; rfl
  | succ k ih => intro flat; simp [chunksOf, ih]

/-- Row `i` of `chunksOf` is the `i`-th length-`n` slice of the stream. -/
lemma chunksOf_get (n : Nat) : ∀ (m i : Nat) (flat : List ℚ), i < m →
    (chunksOf n m flat).get? i = some ((flat.drop (i * n)).take n) := by
  intro m
  induction m with
  | zero => intro i flat h; omega
  | succ k ih =>
    intro i flat h
    cases i with
    | zero => simp [chunksOf]
    | succ j =>
      have := ih j (flat.drop n) (by omega)
      have harith : (j + 1) * n = n + j * n := by ring
      simp only [chunksOf, List.get?_cons_succ]
      rw [this, List.drop_drop, harith]

/-- `numSlackVars` on a cons. -/
lemma numSlackVars_cons (o : LPOps) (t : List LPOps) :
    numSlackVars (o :: t) = (if o = .eq then 0 else 1) + numSlackVars t := by
  unfold numSlackVars
  cases o <;> simp [List.filter] <;> omega

/-- `slackBlockAux` has one row per operator. -/
lemma slackBlockAux_length (sT : Nat) :
    ∀ (ops : List LPOps) (curr : Nat), (slackBlockAux sT ops curr).length = ops.length := by
  intro ops
  induction ops with
  | nil => intro curr; rfl
  | cons o t ih => intro curr; simp [slackBlockAux, ih]

/-- Row `i` of the slack block is `mkSlackRow` at the running slack index
`curr + numSlackVars (ops.take i)`. -/
lemma slackBlockAux_get (sT : Nat) :
    ∀ (ops : List LPOps) (curr i : Nat) (op : LPOps), ops.get? i = some op →
      (slackBlockAux sT ops curr).get? i =
        some (mkSlackRow sT (curr + numSlackVars (ops.take i)) op) := by
  intro ops
  induction ops with
  | nil => intro curr i op h; simp at h
  | cons o t ih =>
    intro curr i op h
    cases i with
    | zero =>
      simp only [List.get?_cons_zero, Option.some.injEq] at h
      subst h
      simp [slackBlockAux, numSlackVars]
    | succ j =>
      simp only [List.get?_cons_succ] at h
      simp only [slackBlockAux, List.get?_cons_succ]
      rw [ih _ j op h]
      have : (if o = LPOps.eq then curr else curr + 1) + numSlackVars (t.take j) =
          curr + numSlackVars ((o :: t).take (j + 1)) := by
        simp only [List.take_succ_cons, numSlackVars_cons]
        split_ifs <;> omega
      rw [this]

/-- The slack index of a non-`Eq` row `i` is below the total slack count. -/
lemma numSlackVars_take_lt (ops : List LPOps) (i : Nat) (op : LPOps)
    (h : ops.get? i = some op) (hop : op ≠ .eq) :
    numSlackVars (ops.take i) < numSlackVars ops := by
  have hi : i < ops.length := by
    by_contra hge
    rw [List.get?_eq_none.mpr (by omega)] at h
    exact absurd h (by simp)
  have hsplit : ops = ops.take i ++ ops.drop i := (List.take_append_drop i ops).symm
  have hdrop : ops.drop i = op :: ops.drop (i + 1) := by
    have h9 : ops[i]? = some op := by rw [← List.get?_eq_getElem?]; exact h
    rw [List.getElem?_eq_getElem hi] at h9
    rw [List.drop_eq_getElem_cons hi, Option.some.inj h9]
  conv_rhs => rw [hsplit, hdrop]
  unfold numSlackVars
  rw [List.filter_append, List.length_append]
  have : (List.filter (fun op => decide (op ≠ LPOps.eq)) (op :: ops.drop (i + 1))).length ≥ 1 := by
    simp [List.filter_cons, hop]
  omega

/-- The `curr`-indexed entry of a non-`Eq` slack row. -/
lemma mkSlackRow_entry (sT curr : Nat) (op : LPOps) (h : curr < sT) (hop : op ≠ .eq) :
    entryAt (mkSlackRow sT curr op) curr = if op = .gte then -1 else 1 := by
  unfold entryAt mkSlackRow
  rw [List.getD_eq_getElem?_getD, List.getElem?_map, List.getElem?_range h]
  simp [hop]

/-- The diagonal entry of an identity row. -/
lemma idRow_entry (m i : Nat) (h : i < m) : entryAt (idRow m i) i = 1 := by
  unfold entryAt idRow
  rw [List.getD_eq_getElem?_getD, List.getElem?_map, List.getElem?_range h]
  simp

/-- Unfolding `build` on a successful run: the field values and the
side conditions implied by the panics not firing. -/
lemma build_eq_record (bd : LPBuilder) (s : LPSolver) (hs : build bd = some s) :
    bd.constraints ≠ [] ∧
    s.slackVarStart = (bd.constraints.headD []).length ∧
    s.artificialVarStart = (bd.constraints.headD []).length + numSlackVars bd.ops ∧
    s.constraints = ((chunksOf (bd.constraints.headD []).length bd.constraints.length
        ((bd.constraints.map (fun r => r.map (fun v : ℤ => (v : ℚ)))).flatten)).zip
        ((slackBlock bd.constraints.length bd.ops).zip (idBlock bd.constraints.length))).map
        (fun p => p.1 ++ p.2.1 ++ p.2.2) ∧
    bd.ops.length ≤ bd.constraints.length ∧
    bd.constraints.length * (bd.constraints.headD []).length ≤
      ((bd.constraints.map (fun r => r.map (fun v : ℤ => (v : ℚ)))).flatten).length := by
  unfold build at hs
  cases hc : bd.constraints with
  | nil =>
    rw [hc] at hs
    exact absurd hs (by simp)
  | cons c0 tl =>
    rw [hc] at hs
    dsimp only at hs
    split_ifs at hs with h1 h2
    injection hs with hs
    subst hs
    exact ⟨by simp, by simp, by simp, rfl, by omega, by simp only [List.headD_cons]; omega⟩

/-- Row `i` of a built system: the `i`-th coefficient slice, then the
slack-block row at running index `numSlackVars (ops.take i)`, then
identity row `i` of the artificial block. -/
lemma build_row (bd : LPBuilder) (s : LPSolver)
    (hlen : bd.ops.length = bd.constraints.length) (hs : build bd = some s)
    (i : Nat) (op : LPOps) (hop : bd.ops.get? i = some op) :
    s.constraints.get? i = some
      ((((bd.constraints.map (fun r => r.map (fun v : ℤ => (v : ℚ)))).flatten.drop
          (i * (bd.constraints.headD []).length)).take (bd.constraints.headD []).length) ++
        mkSlackRow (numSlackVars bd.ops) (numSlackVars (bd.ops.take i)) op ++
        idRow bd.constraints.length i) := by
  obtain ⟨hne, hsv, hav, hcons, hople, hflat⟩ := build_eq_record bd s hs
  have hi : i < bd.ops.length := by
    by_contra hge
    rw [List.get?_eq_none.mpr (by omega)] at hop
    exact absurd hop (by simp)
  have him : i < bd.constraints.length := by omega
  rw [hcons, List.get?_eq_getElem?, List.getElem?_map]
  have hcm : (chunksOf (bd.constraints.headD []).length bd.constraints.length
      ((bd.constraints.map (fun r => r.map (fun v : ℤ => (v : ℚ)))).flatten))[i]? =
      some (((bd.constraints.map (fun r => r.map (fun v : ℤ => (v : ℚ)))).flatten.drop
        (i * (bd.constraints.headD []).length)).take (bd.constraints.headD []).length) := by
    rw [← List.get?_eq_getElem?]
    exact chunksOf_get _ _ i _ him
  have hsb : (slackBlock bd.constraints.length bd.ops)[i]? =
      some (mkSlackRow (numSlackVars bd.ops) (numSlackVars (bd.ops.take i)) op) := by
    unfold slackBlock
    rw [List.getElem?_append_left (by rw [slackBlockAux_length]; omega)]
    rw [← List.get?_eq_getElem?]
    have := slackBlockAux_get (numSlackVars bd.ops) bd.ops 0 i op hop
    simpa using this
  have hib : (idBlock bd.constraints.length)[i]? = some (idRow bd.constraints.length i) := by
    unfold idBlock
    rw [List.getElem?_map, List.getElem?_range him]
    rfl
  have hz2 : ((slackBlock bd.constraints.length bd.ops).zip
      (idBlock bd.constraints.length))[i]? =
      some ((mkSlackRow (numSlackVars bd.ops) (numSlackVars (bd.ops.take i)) op),
        (idRow bd.constraints.length i)) :=
    List.getElem?_zip_eq_some.mpr ⟨hsb, hib⟩
  have hz : ((chunksOf (bd.constraints.headD []).length bd.constraints.length
      ((bd.constraints.map (fun r => r.map (fun v : ℤ => (v : ℚ)))).flatten)).zip
      ((slackBlock bd.constraints.length bd.ops).zip (idBlock bd.constraints.length)))[i]? =
      some ((((bd.constraints.map (fun r => r.map (fun v : ℤ => (v : ℚ)))).flatten.drop
          (i * (bd.constraints.headD []).length)).take (bd.constraints.headD []).length),
        ((mkSlackRow (numSlackVars bd.ops) (numSlackVars (bd.ops.take i)) op),
          (idRow bd.constraints.length i))) :=
    List.getElem?_zip_eq_some.mpr ⟨hcm, hz2⟩
  rw [hz]
  rfl

/-- Length of one coefficient slice when the stream is long enough. -/
lemma chunk_slice_length (flat : List ℚ) (n m i : Nat) (him : i < m)
    (hflat : m * n ≤ flat.length) : ((flat.drop (i * n)).take n).length = n := by
  rw [List.length_take, List.length_drop]
  have h1 : (i + 1) * n ≤ m * n := Nat.mul_le_mul_right n (by omega)
  have h2 : (i + 1) * n = i * n + n := by ring
  omega

/-- Slack rows have the full slack width. -/
lemma mkSlackRow_length (sT curr : Nat) (op : LPOps) : (mkSlackRow sT curr op).length = sT := by
  simp [mkSlackRow]

/-- Identity rows have width `m`. -/
lemma idRow_length (m i : Nat) : (idRow m i).length = m := by
  simp [idRow]

/-- Reading an appended row past the left part. -/
lemma entryAt_append_right (a b : List ℚ) (k : Nat) :
    entryAt (a ++ b) (a.length + k) = entryAt b k := by
  unfold entryAt
  have h : a.length + k - a.length = k := by omega
  rw [List.getD_eq_getElem?_getD, List.getElem?_append_right (Nat.le_add_right _ _), h,
    ← List.getD_eq_getElem?_getD]

/-- Reading an appended row inside the left part. -/
lemma entryAt_append_left (a b : List ℚ) (j : Nat) (h : j < a.length) :
    entryAt (a ++ b) j = entryAt a j := by
  unfold entryAt
  rw [List.getD_eq_getElem?_getD, List.getElem?_append_left h, ← List.getD_eq_getElem?_getD]

/-- The head of a list whose first element is known. -/
lemma headD_eq_of_get_zero (l : List (List ℚ)) (a : List ℚ) (h : l.get? 0 = some a) :
    l.headD [] = a := by
  cases l with
  | nil => simp at h
  | cons x t =>
    simp at h
    simp [h]

/-- C2 amended: standardization gives every constraint row one artificial
column regardless of its operator (the artificial block is the m×m
identity), Phase 1's initial basis is the full artificial-column range —
for a `LessEq` row the artificial, not the slack, is the initial basic
column — and each `LessEq` row additionally carries a `+1` entry in its
own slack column. -/
theorem c2_one_artificial_per_row (bd : LPBuilder) (s : LPSolver)
    (hlen : bd.ops.length = bd.constraints.length) (hs : build bd = some s) :
    numArtificialCols s = bd.constraints.length ∧
    bfsInitBasis s = List.range' s.artificialVarStart bd.constraints.length ∧
    ∀ i op, bd.ops.get? i = some op → op = LPOps.lte →
      entryAt (s.constraints.getD i []) (s.artificialVarStart + i) = 1 ∧
      entryAt (s.constraints.getD i []) (s.slackVarStart + numSlackVars (bd.ops.take i)) = 1 := by
  obtain ⟨hne, hsv, hav, hcons, hople, hflat⟩ := build_eq_record bd s hs
  have hm : 0 < bd.constraints.length := List.length_pos.mpr hne
  obtain ⟨op0, hop0⟩ : ∃ op0, bd.ops.get? 0 = some op0 := by
    cases hops : bd.ops with
    | nil =>
      rw [hops] at hlen
      simp at hlen
      omega
    | cons o t => exact ⟨o, rfl⟩
  have h0 := build_row bd s hlen hs 0 op0 hop0
  have hncols : ncolsOf s =
      (bd.constraints.headD []).length + numSlackVars bd.ops + bd.constraints.length := by
    unfold ncolsOf
    rw [headD_eq_of_get_zero _ _ h0]
    rw [List.length_append, List.length_append, mkSlackRow_length, idRow_length,
      chunk_slice_length _ _ bd.constraints.length 0 hm hflat]
  refine ⟨?_, ?_, ?_⟩
  · unfold numArtificialCols
    rw [hncols, hav]
    omega
  · unfold bfsInitBasis
    rw [hncols, hav]
    congr 1
    omega
  · intro i op hop hlte
    have hi : i < bd.ops.length := by
      by_contra hge
      rw [List.get?_eq_none.mpr (by omega)] at hop
      exact absurd hop (by simp)
    have him : i < bd.constraints.length := by omega
    have hrow := build_row bd s hlen hs i op hop
    have hgetD : s.constraints.getD i [] =
        (((bd.constraints.map (fun r => r.map (fun v : ℤ => (v : ℚ)))).flatten.drop
            (i * (bd.constraints.headD []).length)).take (bd.constraints.headD []).length) ++
          mkSlackRow (numSlackVars bd.ops) (numSlackVars (bd.ops.take i)) op ++
          idRow bd.constraints.length i := by
      rw [List.getD_eq_getElem?_getD, ← List.get?_eq_getElem?, hrow]
      rfl
    have hclen := chunk_slice_length
      ((bd.constraints.map (fun r => r.map (fun v : ℤ => (v : ℚ)))).flatten)
      (bd.constraints.headD []).length bd.constraints.length i him hflat
    have hk : numSlackVars (bd.ops.take i) < numSlackVars bd.ops :=
      numSlackVars_take_lt bd.ops i op hop (by rw [hlte]; simp)
    constructor
    · rw [hgetD, hav]
      have hidx : (bd.constraints.headD []).length + numSlackVars bd.ops + i =
          ((((bd.constraints.map (fun r => r.map (fun v : ℤ => (v : ℚ)))).flatten.drop
              (i * (bd.constraints.headD []).length)).take (bd.constraints.headD []).length) ++
            mkSlackRow (numSlackVars bd.ops) (numSlackVars (bd.ops.take i)) op).length + i := by
        rw [List.length_append, mkSlackRow_length, hclen]
      rw [hidx, entryAt_append_right]
      exact idRow_entry _ _ him
    · rw [hgetD, hsv]
      rw [entryAt_append_left _ _ _ (by
        rw [List.length_append, mkSlackRow_length, hclen]
        omega)]
      have hidx : (bd.constraints.headD []).length + numSlackVars (bd.ops.take i) =
          ((((bd.constraints.map (fun r => r.map (fun v : ℤ => (v : ℚ)))).flatten.drop
              (i * (bd.constraints.headD []).length)).take
                (bd.constraints.headD []).length)).length + numSlackVars (bd.ops.take i) := by
        rw [hclen]
      rw [hidx, entryAt_append_right]
      rw [mkSlackRow_entry _ _ _ hk (by rw [hlte]; simp)]
      rw [hlte]
      rfl

unseal Rat.mul Rat.add Rat.sub Rat.inv in
/-- C2 witness: the mixed-operator builder `bW2` (one `Lte`, one `Gte`,
one `Eq` row) gets three artificial columns, the artificial-range initial
basis, and a `+1` slack entry in its `Lte` row. -/
theorem c2_witness :
    bW2.ops.length = bW2.constraints.length ∧
    build bW2 = some sW2 ∧
    numArtificialCols sW2 = bW2.constraints.length ∧
    bfsInitBasis sW2 = List.range' sW2.artificialVarStart bW2.constraints.length ∧
    entryAt (sW2.constraints.getD 0 []) (sW2.artificialVarStart + 0) = 1 ∧
    entryAt (sW2.constraints.getD 0 []) (sW2.slackVarStart + numSlackVars (bW2.ops.take 0)) = 1 :=
  ⟨by decide, by decide,
    (c2_one_artificial_per_row bW2 sW2 (by decide) (by decide)).1,
    (c2_one_artificial_per_row bW2 sW2 (by decide) (by decide)).2.1,
    ((c2_one_artificial_per_row bW2 sW2 (by decide) (by decide)).2.2 0 .lte (by decide) rfl).1,
    ((c2_one_artificial_per_row bW2 sW2 (by decide) (by decide)).2.2 0 .lte (by decide) rfl).2⟩

/-- The `min_by` fold keeps the first element attaining the minimum: the
input decomposes around the result, everything strictly earlier is
strictly larger, and the result is a lower bound. -/
lemma foldl_minStep_first_min :
    ∀ (xs : List (Nat × ℚ)) (x : Nat × ℚ),
      ∃ l₁ l₂, x :: xs = l₁ ++ (xs.foldl minStep x) :: l₂ ∧
        (∀ q ∈ l₁, (xs.foldl minStep x).2 < q.2) ∧
        (∀ q ∈ x :: xs, (xs.foldl minStep x).2 ≤ q.2) := by
  intro xs
  induction xs with
  | nil =>
    intro x
    exact ⟨[], [], rfl, by simp, by simp⟩
  | cons y ys ih =>
    intro x
    have hfold : (y :: ys).foldl minStep x = ys.foldl minStep (minStep x y) := rfl
    rw [hfold]
    obtain ⟨l₁, l₂, hdecomp, hstrict, hle⟩ := ih (minStep x y)
    by_cases hy : y.2 < x.2
    · have hstep : minStep x y = y := by
        unfold minStep
        rw [if_pos hy]
      rw [hstep] at hdecomp hstrict hle
      have hMy : (ys.foldl minStep y).2 ≤ y.2 := hle y (List.mem_cons_self y ys)
      refine ⟨x :: l₁, l₂, ?_, ?_, ?_⟩
      · rw [hstep, List.cons_append, ← hdecomp]
      · intro q hq
        rw [hstep]
        rcases List.mem_cons.mp hq with hq | hq
        · subst hq
          exact lt_of_le_of_lt hMy hy
        · exact hstrict q hq
      · intro q hq
        rw [hstep]
        rcases List.mem_cons.mp hq with hq | hq
        · subst hq
          exact le_of_lt (lt_of_le_of_lt hMy hy)
        · exact hle q hq
    · have hstep : minStep x y = x := by
        unfold minStep
        rw [if_neg hy]
      rw [hstep] at hdecomp hstrict hle
      have hxy : x.2 ≤ y.2 := le_of_not_lt hy
      have hMx : (ys.foldl minStep x).2 ≤ x.2 := hle x (List.mem_cons_self x ys)
      cases l₁ with
      | nil =>
        simp only [List.nil_append] at hdecomp
        injection hdecomp with hM hl₂
        refine ⟨[], y :: ys, ?_, by simp, ?_⟩
        · rw [List.nil_append, hstep, ← hM]
        · intro q hq
          rw [hstep]
          rcases List.mem_cons.mp hq with hq | hq
          · subst hq
            exact hMx
          · rcases List.mem_cons.mp hq with hq | hq
            · subst hq
              exact le_trans hMx hxy
            · exact hle q (List.mem_cons_of_mem x hq)
      | cons a t =>
        simp only [List.cons_append] at hdecomp
        injection hdecomp with ha hys
        have hax : (ys.foldl minStep x).2 < x.2 := by
          have := hstrict a (List.mem_cons_self a t)
          rw [← ha] at this
          exact this
        refine ⟨x :: y :: t, l₂, ?_, ?_, ?_⟩
        · rw [hstep]
          simp only [List.cons_append]
          rw [← hys]
        · intro q hq
          rw [hstep]
          rcases List.mem_cons.mp hq with hq | hq
          · subst hq
            exact hax
          · rcases List.mem_cons.mp hq with hq | hq
            · subst hq
              exact lt_of_lt_of_le hax hxy
            · exact hstrict q (List.mem_cons_of_mem a hq)
        · intro q hq
          rw [hstep]
          rcases List.mem_cons.mp hq with hq | hq
          · subst hq
            exact hMx
          · rcases List.mem_cons.mp hq with hq | hq
            · subst hq
              exact le_trans hMx hxy
            · exact hle q (List.mem_cons_of_mem x hq)

/-- `minByFirst` on a nonempty list returns the first minimum. -/
lemma minByFirst_spec (l : List (Nat × ℚ)) (hl : l ≠ []) :
    ∃ p l₁ l₂, minByFirst l = some p ∧ l = l₁ ++ p :: l₂ ∧
      (∀ q ∈ l₁, p.2 < q.2) ∧ (∀ q ∈ l, p.2 ≤ q.2) := by
  cases l with
  | nil => exact absurd rfl hl
  | cons x xs =>
    obtain ⟨l₁, l₂, hdecomp, hstrict, hle⟩ := foldl_minStep_first_min xs x
    exact ⟨xs.foldl minStep x, l₁, l₂, rfl, hdecomp, hstrict, hle⟩

/-- Indices in `enumFrom` are strictly increasing. -/
lemma enumFrom_pairwise_fst_lt {α : Type} :
    ∀ (l : List α) (n : Nat), (l.enumFrom n).Pairwise (fun p q => p.1 < q.1) := by
  intro l
  induction l with
  | nil => intro n; exact List.Pairwise.nil
  | cons x t ih =>
    intro n
    refine List.Pairwise.cons ?_ (ih (n + 1))
    intro q hq
    obtain ⟨i, a⟩ := q
    rw [List.mk_mem_enumFrom_iff_le_and_getElem?_sub] at hq
    exact lt_of_lt_of_le (Nat.lt_succ_self n) hq.1

/-- The candidate list of the ratio test has strictly increasing row
indices. -/
lemma ratio_candidates_pairwise (xB d : List ℚ) :
    ((((xB.zip d).enum.filter (fun p => decide (0 < p.2.2))).map
      (fun p => (p.1, p.2.1 / p.2.2))).Pairwise (fun p q => p.1 < q.1)) := by
  rw [List.pairwise_map]
  exact (enumFrom_pairwise_fst_lt (xB.zip d) 0).filter _

/-- Membership in the candidate list of the ratio test. -/
lemma mem_ratio_candidates (xB d : List ℚ) (j : Nat) (q : ℚ) :
    (j, q) ∈ ((xB.zip d).enum.filter (fun p => decide (0 < p.2.2))).map
        (fun p => (p.1, p.2.1 / p.2.2)) ↔
      ∃ x dj, xB.get? j = some x ∧ d.get? j = some dj ∧ 0 < dj ∧ q = x / dj := by
  rw [List.mem_map]
  constructor
  · rintro ⟨p, hp, heq⟩
    rw [List.mem_filter] at hp
    obtain ⟨hpe, hpd⟩ := hp
    obtain ⟨i, pr⟩ := p
    obtain ⟨px, pd⟩ := pr
    have hget := List.mem_enum_iff_getElem?.mp hpe
    simp only [Prod.ext_iff] at heq
    obtain ⟨h1, h2⟩ := heq
    dsimp only at h1 h2 hget
    subst h1
    obtain ⟨hx, hd⟩ := List.getElem?_zip_eq_some.mp hget
    refine ⟨px, pd, ?_, ?_, by simpa using hpd, h2.symm⟩
    · rw [List.get?_eq_getElem?]
      exact hx
    · rw [List.get?_eq_getElem?]
      exact hd
  · rintro ⟨x, dj, hx, hd, hdj, rfl⟩
    refine ⟨(j, (x, dj)), ?_, rfl⟩
    rw [List.mem_filter]
    constructor
    · rw [List.mem_enum_iff_getElem?]
      exact List.getElem?_zip_eq_some.mpr
        ⟨by rw [← List.get?_eq_getElem?]; exact hx, by rw [← List.get?_eq_getElem?]; exact hd⟩
    · simpa using hdj

/-- An index with a `some` lookup is in range. -/
lemma get?_lt_length {α : Type} (l : List α) (i : Nat) (x : α) (h : l.get? i = some x) :
    i < l.length := by
  by_contra hge
  rw [List.get?_eq_none.mpr (by omega)] at h
  exact absurd h (by simp)

/-- `getD` agrees with a known `get?` value. -/
lemma getD_of_get? (l : List ℚ) (i : Nat) (x : ℚ) (h : l.get? i = some x) : l.getD i 0 = x := by
  rw [List.getD_eq_getElem?_getD, ← List.get?_eq_getElem?, h]
  rfl

/-- In-range `get?` returns the `getD` value. -/
lemma get?_self_getD (l : List ℚ) (i : Nat) (h : i < l.length) :
    l.get? i = some (l.getD i 0) := by
  rw [List.get?_eq_getElem?, List.getElem?_eq_getElem h, List.getD_eq_getElem?_getD,
    List.getElem?_eq_getElem h]
  rfl

/-- C5: in a non-terminal iteration, if the pivot column has no strictly
positive entry the step aborts with the unbounded failure; otherwise the
leaving row has a strictly positive pivot entry, minimizes
right-hand-side ÷ pivot-entry over all rows with positive pivot entry, is
the lowest-indexed row among ties, and the step pivots on it. -/
theorem c5_ratio_test_rule (s : LPSolver) (objective : List ℚ) (bCols nCols : List Nat)
    (basisInv : List (List ℚ)) (rc : List ℚ) (entering : Nat) (d xB : List ℚ)
    (hB : basisInvOf s bCols = some basisInv)
    (hrc : reducedCostsOf s objective bCols nCols = some rc)
    (hterm : optimalityCheck rc = false)
    (hent : entering = nCols.getD (argminIdx rc) 0)
    (hd : d = matVec basisInv (colOf s.constraints entering))
    (hxB : xB = matVec basisInv s.b) :
    (d.all (fun q => decide (q ≤ 0)) = true →
      simplexStep s objective bCols nCols = .error .unboundedProblem) ∧
    (d.all (fun q => decide (q ≤ 0)) = false →
      ∃ r, leavingColOf xB d = some r ∧
        r < d.length ∧
        0 < d.getD r 0 ∧
        (∀ j, j < d.length → 0 < d.getD j 0 →
          xB.getD r 0 / d.getD r 0 ≤ xB.getD j 0 / d.getD j 0) ∧
        (∀ j, j < r → 0 < d.getD j 0 →
          xB.getD r 0 / d.getD r 0 < xB.getD j 0 / d.getD j 0) ∧
        simplexStep s objective bCols nCols = .ok (.inr (bCols.set r entering,
          nCols.set (argminIdx rc) ((bCols.set r entering).getD r 0)))) := by
  have hstep0 : simplexStep s objective bCols nCols =
      (if (d.all (fun q => decide (q ≤ 0))) = true then .error .unboundedProblem
       else
        match leavingColOf xB d with
        | none => .error .pivotFailure
        | some leavingCol =>
          .ok (.inr (bCols.set leavingCol entering,
            nCols.set (argminIdx rc) ((bCols.set leavingCol entering).getD leavingCol 0)))) := by
    unfold simplexStep
    rw [hB]
    try dsimp only
    rw [hrc]
    try dsimp only
    rw [hterm]
    rw [if_neg (by simp)]
    try dsimp only
    rw [← hent, ← hd, ← hxB]
  constructor
  · intro hall
    rw [hstep0, if_pos hall]
  · intro hall
    have hlen : xB.length = d.length := by
      rw [hxB, hd]
      simp [matVec]
    have hnall : ¬ ∀ x ∈ d, decide (x ≤ 0) = true := by
      rw [← List.all_eq_true, hall]
      simp
    push_neg at hnall
    obtain ⟨dj0, hdj0mem, hdj0⟩ := hnall
    have hdj0pos : 0 < dj0 := by
      simp at hdj0
      exact hdj0
    obtain ⟨j0, hj0⟩ := List.mem_iff_get?.mp hdj0mem
    have hj0lt : j0 < d.length := get?_lt_length d j0 dj0 hj0
    have hj0x : xB.get? j0 = some (xB.getD j0 0) := get?_self_getD xB j0 (by omega)
    have hmem0 : (j0, xB.getD j0 0 / dj0) ∈
        ((xB.zip d).enum.filter (fun p => decide (0 < p.2.2))).map
          (fun p => (p.1, p.2.1 / p.2.2)) :=
      (mem_ratio_candidates xB d j0 _).mpr ⟨xB.getD j0 0, dj0, hj0x, hj0, hdj0pos, rfl⟩
    obtain ⟨p, l₁, l₂, hmin, hdecomp, hstrict, hle⟩ :=
      minByFirst_spec _ (List.ne_nil_of_mem hmem0)
    have hpF : (p.1, p.2) ∈
        ((xB.zip d).enum.filter (fun p => decide (0 < p.2.2))).map
          (fun p => (p.1, p.2.1 / p.2.2)) := by
      rw [Prod.mk.eta, hdecomp]
      exact List.mem_append_right _ (List.mem_cons_self _ _)
    obtain ⟨px, pd, hpx, hpd, hpdpos, hpq⟩ := (mem_ratio_candidates xB d p.1 p.2).mp hpF
    have hrlt : p.1 < d.length := get?_lt_length d p.1 pd hpd
    have hgdr : d.getD p.1 0 = pd := getD_of_get? d p.1 pd hpd
    have hgxr : xB.getD p.1 0 = px := getD_of_get? xB p.1 px hpx
    have hratio_r : xB.getD p.1 0 / d.getD p.1 0 = p.2 := by
      rw [hgdr, hgxr, hpq]
    have hmemj : ∀ j, j < d.length → 0 < d.getD j 0 →
        (j, xB.getD j 0 / d.getD j 0) ∈
          ((xB.zip d).enum.filter (fun p => decide (0 < p.2.2))).map
            (fun p => (p.1, p.2.1 / p.2.2)) := by
      intro j hj hdj
      exact (mem_ratio_candidates xB d j _).mpr
        ⟨xB.getD j 0, d.getD j 0, get?_self_getD xB j (by omega), get?_self_getD d j hj,
          hdj, rfl⟩
    refine ⟨p.1, ?_, hrlt, by rw [hgdr]; exact hpdpos, ?_, ?_, ?_⟩
    · unfold leavingColOf
      rw [hmin]
      rfl
    · intro j hj hdj
      rw [hratio_r]
      exact hle _ (hmemj j hj hdj)
    · intro j hjr hdj
      have hjlen : j < d.length := by omega
      have hmj := hmemj j hjlen hdj
      rw [hdecomp] at hmj
      rcases List.mem_append.mp hmj with hmj | hmj
      · rw [hratio_r]
        exact hstrict _ hmj
      · rcases List.mem_cons.mp hmj with hmj | hmj
        · exact absurd (congrArg Prod.fst hmj) (by simp; omega)
        · have hpw := ratio_candidates_pairwise xB d
          rw [hdecomp] at hpw
          have hrel := (List.pairwise_cons.mp (List.pairwise_append.mp hpw).2.1).1
          have := hrel _ hmj
          dsimp only at this
          omega
    · rw [hstep0, if_neg (by rw [hall]; simp)]
      unfold leavingColOf
      rw [hmin]
      rfl

unseal Rat.mul Rat.add Rat.sub Rat.inv in
/-- Witness for C5: at the phase-1 first iteration of the `sC6` instance
(basis = the artificial columns `[3, 4]`), the entering column is 0 with
pivot direction `d = [1, 1]` and basic values `xB = [10, 5]`; the ratio test
selects row 1 (ratio 5/1 < 10/1) and the step pivots to basis `[3, 0]`. -/
theorem c5_witness :
    basisInvOf sC6 [3, 4] = some [[1, 0], [0, 1]] ∧
    reducedCostsOf sC6 sC6.p1Objective [3, 4] [0, 1, 2] = some [-2, 1, -1] ∧
    (([1, 1] : List ℚ).all (fun q => decide (q ≤ 0))) = false ∧
    simplexStep sC6 sC6.p1Objective [3, 4] [0, 1, 2] =
      .ok (.inr ([3, 0], [0, 1, 2])) := by
  have h := (c5_ratio_test_rule sC6 sC6.p1Objective [3, 4] [0, 1, 2]
      [[1, 0], [0, 1]] [-2, 1, -1] 0 [1, 1] [10, 5]
      (by decide) (by decide) (by decide) (by decide) (by decide) (by decide)).2
      (by decide)
  obtain ⟨r, hmin, hrlt, hpos, hle, hstrict, hstep⟩ := h
  have hr : r = 1 := by
    have hl : leavingColOf ([10, 5] : List ℚ) ([1, 1] : List ℚ) = some 1 := by decide
    exact (Option.some_inj.mp (hl.symm.trans hmin)).symm
  subst hr
  refine ⟨by decide, by decide, by decide, ?_⟩
  rw [hstep]
  decide
